import Mathlib

/-!
Shallow embedding of the qmf semantic-indexing core (src/lib/quaternion.ts and
the clusterResults routine of src/components/MemoryDecoder.tsx).  JavaScript
numbers are modelled as exact reals; strings are modelled as lists of
character codes (naturals).  Each definition mirrors one source function.
-/

namespace QMF

/-- The `Quaternion` record of the source: four numeric components. -/
@[ext]
structure Quaternion where
  w : ℝ
  x : ℝ
  y : ℝ
  z : ℝ

/-- The pair `{ quaternion, primeSignature }` produced by `encodeText` and
consumed by `resonanceScore` / `entanglementStrength`. -/
@[ext]
structure EncodedText where
  quaternion : Quaternion
  primeSignature : List ℕ

/-- The `Memory` record of the source. -/
structure Memory where
  id : String
  primeSignature : List ℕ
  quaternion : Quaternion
  content : List ℕ
  timestamp : ℕ

/-- Source `magnitude(q) = sqrt(w*w + x*x + y*y + z*z)`. -/
noncomputable def magnitude (q : Quaternion) : ℝ :=
  Real.sqrt (q.w * q.w + q.x * q.x + q.y * q.y + q.z * q.z)

/-- Source `normalize(q)`: the zero-magnitude fallback is `(1,0,0,0)`,
otherwise each component is divided by the magnitude. -/
noncomputable def normalize (q : Quaternion) : Quaternion :=
  if magnitude q = 0 then ⟨1, 0, 0, 0⟩
  else ⟨q.w / magnitude q, q.x / magnitude q, q.y / magnitude q, q.z / magnitude q⟩

/-- Source `dot(q1, q2)`. -/
noncomputable def dot (q1 q2 : Quaternion) : ℝ :=
  q1.w * q2.w + q1.x * q2.x + q1.y * q2.y + q1.z * q2.z

/-- The four Hamilton-formula components of `hamiltonProduct` before the
final normalization. -/
noncomputable def hamiltonRaw (q1 q2 : Quaternion) : Quaternion :=
  ⟨q1.w * q2.w - q1.x * q2.x - q1.y * q2.y - q1.z * q2.z,
   q1.w * q2.x + q1.x * q2.w + q1.y * q2.z - q1.z * q2.y,
   q1.w * q2.y - q1.x * q2.z + q1.y * q2.w + q1.z * q2.x,
   q1.w * q2.z + q1.x * q2.y - q1.y * q2.x + q1.z * q2.w⟩

/-- Source `hamiltonProduct(q1, q2)`: the Hamilton formula, normalized. -/
noncomputable def hamiltonProduct (q1 q2 : Quaternion) : Quaternion :=
  normalize (hamiltonRaw q1 q2)

/-- Source `slerp(q1, q2, t)`: sign correction, near-parallel linear
fallback above dot `0.9995`, otherwise the trigonometric formula; the result
is always normalized. -/
noncomputable def slerp (q1 q2 : Quaternion) (t : ℝ) : Quaternion :=
  let d0 := dot q1 q2
  let d := if d0 < 0 then -d0 else d0
  let q2Adj : Quaternion := if d0 < 0 then ⟨-q2.w, -q2.x, -q2.y, -q2.z⟩ else q2
  if 0.9995 < d then
    normalize ⟨q1.w + t * (q2Adj.w - q1.w), q1.x + t * (q2Adj.x - q1.x),
               q1.y + t * (q2Adj.y - q1.y), q1.z + t * (q2Adj.z - q1.z)⟩
  else
    let theta0 := Real.arccos d
    let theta := theta0 * t
    let s0 := Real.cos theta - d * Real.sin theta / Real.sin theta0
    let s1 := Real.sin theta / Real.sin theta0
    normalize ⟨s0 * q1.w + s1 * q2Adj.w, s0 * q1.x + s1 * q2Adj.x,
               s0 * q1.y + s1 * q2Adj.y, s0 * q1.z + s1 * q2Adj.z⟩

/-- The fixed table of the first 100 primes used by the encoder. -/
def PRIMES : List ℕ :=
  [2, 3, 5, 7, 11, 13, 17, 19, 23, 29, 31, 37, 41, 43, 47, 53, 59, 61, 67, 71,
   73, 79, 83, 89, 97, 101, 103, 107, 109, 113, 127, 131, 137, 139, 149, 151,
   157, 163, 167, 173, 179, 181, 191, 193, 197, 199, 211, 223, 227, 229, 233,
   239, 241, 251, 257, 263, 269, 271, 277, 281, 283, 293, 307, 311, 313, 317,
   331, 337, 347, 349, 353, 359, 367, 373, 379, 383, 389, 397, 401, 409, 419,
   421, 431, 433, 439, 443, 449, 457, 461, 463, 467, 479, 487, 491, 499, 503,
   509, 521, 523, 541]

/-- ASCII lower-casing of one character code, the effect of the source's
`text.toLowerCase()` on each character. -/
def toLowerCode (c : ℕ) : ℕ :=
  if 65 ≤ c ∧ c ≤ 90 then c + 32 else c

/-- ASCII upper-casing of one character code (used to state
case-insensitivity against an upper-cased variant of the input). -/
def toUpperCode (c : ℕ) : ℕ :=
  if 97 ≤ c ∧ c ≤ 122 then c - 32 else c

/-- The working (non-deduplicated) prime sequence of `encodeText`: for the
character at position `i` with code `c` (after lower-casing), the prime at
index `(c + i) mod 100`. -/
def rawSignature (text : List ℕ) : List ℕ :=
  (text.map toLowerCode).enum.map (fun ic => PRIMES.getD ((ic.2 + ic.1) % PRIMES.length) 0)

/-- First-occurrence deduplication, the effect of `[...new Set(list)]`. -/
def dedupFirst : List ℕ → List ℕ
  | [] => []
  | a :: l => a :: dedupFirst (l.filter (fun b => b ≠ a))
termination_by l => l.length
decreasing_by
  simp only [List.length_cons]
  exact Nat.lt_succ_of_le (List.length_filter_le _ _)

/-- The harmonic accumulation of `encodeText`: phases
`prime * (i+1) / 1000` over the non-deduplicated working sequence, averaged
by `n = length || 1` and normalized. -/
noncomputable def harmonicQuaternion (sig : List ℕ) : Quaternion :=
  let n : ℝ := if sig.length = 0 then 1 else (sig.length : ℝ)
  let phases : List ℝ := sig.enum.map (fun ip => ((ip.2 : ℝ) * ((ip.1 : ℝ) + 1)) / 1000)
  normalize
    ⟨(phases.map (fun p => Real.cos p)).sum / n,
     (phases.map (fun p => Real.sin p * Real.cos (p * 2))).sum / n,
     (phases.map (fun p => Real.sin (p * 2) * Real.cos p)).sum / n,
     (phases.map (fun p => Real.sin p * Real.sin (p * 2))).sum / n⟩

/-- Source `encodeText(text)`: lower-case, map characters to primes, build
the harmonic quaternion from the working sequence, return the deduplicated
signature. -/
noncomputable def encodeText (text : List ℕ) : EncodedText :=
  { quaternion := harmonicQuaternion (rawSignature text)
    primeSignature := dedupFirst (rawSignature text) }

/-- Source `jaccardSimilarity(sig1, sig2)`. -/
noncomputable def jaccardSimilarity (sig1 sig2 : List ℕ) : ℝ :=
  let set1 := sig1.toFinset
  let set2 := sig2.toFinset
  let intersection := set1 ∩ set2
  let union := set1 ∪ set2
  if union.card = 0 then 0 else (intersection.card : ℝ) / (union.card : ℝ)

/-- Source `resonanceScore(query, pattern, alpha, beta)` (the source defaults
are `alpha = 0.5`, `beta = 0.5`). -/
noncomputable def resonanceScore (query pattern : EncodedText) (alpha beta : ℝ) : ℝ :=
  alpha * jaccardSimilarity query.primeSignature pattern.primeSignature +
    beta * |dot query.quaternion pattern.quaternion|

/-- Source `entanglementStrength(memA, memB)`. -/
noncomputable def entanglementStrength (memA memB : EncodedText) : ℝ :=
  let sigA := memA.primeSignature.toFinset
  let sigB := memB.primeSignature.toFinset
  let intersection := sigA ∩ sigB
  let maxSize := max sigA.card sigB.card
  let primeOverlap : ℝ := if maxSize = 0 then 0 else (intersection.card : ℝ) / (maxSize : ℝ)
  let quatDot := |dot memA.quaternion memB.quaternion|
  0.5 * (primeOverlap + quatDot)

/-- The `entropy` accumulator of `calculateEntropy`: over each key of the
frequency table (the distinct entries of the flattened signature list `l`),
with probability `p = count / total`, subtract `p * log2 p` when `p > 0`. -/
noncomputable def entropySum (l : List ℕ) : ℝ :=
  ∑ p ∈ l.toFinset,
    (if 0 < (l.count p : ℝ) / (l.length : ℝ) then
      -(((l.count p : ℝ) / (l.length : ℝ)) * Real.logb 2 ((l.count p : ℝ) / (l.length : ℝ)))
     else 0)

/-- The `maxEntropy` value of `calculateEntropy`:
`log2(primeFreq.size || 1)`. -/
noncomputable def maxEntropyOf (l : List ℕ) : ℝ :=
  Real.logb 2 (if l.toFinset.card = 0 then 1 else (l.toFinset.card : ℝ))

/-- Source `calculateEntropy(memories)`: frequency table over every
signature entry, Shannon entropy normalized by `log2` of the number of
distinct primes, with `0` fallbacks for the empty cases. -/
noncomputable def calculateEntropy (memories : List Memory) : ℝ :=
  if memories.length = 0 then 0
  else
    let allPrimes := (memories.map (fun m => m.primeSignature)).flatten
    if allPrimes.length = 0 then 0
    else if maxEntropyOf allPrimes = 0 then 0
    else entropySum allPrimes / maxEntropyOf allPrimes

/-- The `SearchResult` record of `MemoryDecoder` (the transient `clusterId`
field, written but never read back by the algorithm, is omitted). -/
structure SearchResult where
  memory : Memory
  resonance : ℝ
  similarity : ℝ
  quaternionAlignment : ℝ

/-- The `Cluster` record of `MemoryDecoder`. -/
structure Cluster where
  id : ℕ
  results : List SearchResult
  avgResonance : ℝ

/-- The inner `for j` loop of `clusterResults` at index `j` with the current
assigned-index set: collects the later unassigned results linked to the
seed, in index order, and returns them with the updated assigned set. -/
def innerLoop {α : Type} (rs : List α) (link : α → α → Bool) (seed : α)
    (j : ℕ) (assigned : Finset ℕ) : List α × Finset ℕ :=
  if h : j < rs.length then
    if j ∈ assigned then innerLoop rs link seed (j + 1) assigned
    else if link seed (rs.get ⟨j, h⟩) then
      (rs.get ⟨j, h⟩ :: (innerLoop rs link seed (j + 1) (insert j assigned)).1,
       (innerLoop rs link seed (j + 1) (insert j assigned)).2)
    else innerLoop rs link seed (j + 1) assigned
  else ([], assigned)
termination_by rs.length - j

/-- The outer `for i` loop of `clusterResults`: each unassigned index seeds
a new group made of the seed followed by what the inner scan absorbed. -/
def outerLoop {α : Type} (rs : List α) (link : α → α → Bool)
    (i : ℕ) (assigned : Finset ℕ) : List (List α) :=
  if h : i < rs.length then
    if i ∈ assigned then outerLoop rs link (i + 1) assigned
    else
      (rs.get ⟨i, h⟩ :: (innerLoop rs link (rs.get ⟨i, h⟩) (i + 1) (insert i assigned)).1) ::
        outerLoop rs link (i + 1) (innerLoop rs link (rs.get ⟨i, h⟩) (i + 1) (insert i assigned)).2
  else []
termination_by rs.length - i

/-- The clustering algorithm as the claim states it: the first pending
result seeds a cluster that absorbs every later pending result linked to
the seed; the rest are clustered recursively. -/
def greedyGroups {α : Type} (link : α → α → Bool) : List α → List (List α)
  | [] => []
  | seed :: rest =>
    (seed :: rest.filter (fun r => link seed r)) ::
      greedyGroups link (rest.filter (fun r => !link seed r))
termination_by l => l.length
decreasing_by
  simp only [List.length_cons]
  exact Nat.lt_succ_of_le (List.length_filter_le _ _)

/-- Group lists become `Cluster` records: ids in discovery order and the
average resonance of the members. -/
noncomputable def mkClusters (groups : List (List SearchResult)) : List Cluster :=
  groups.enum.map (fun ig =>
    { id := ig.1
      results := ig.2
      avgResonance := (ig.2.map (fun r => r.resonance)).sum / (ig.2.length : ℝ) })

/-- The final `clusterList.sort((a, b) => b.avgResonance - a.avgResonance)`:
a stable sort by descending average resonance. -/
noncomputable def sortClusters (clusters : List Cluster) : List Cluster :=
  clusters.mergeSort (fun c1 c2 => decide (c2.avgResonance ≤ c1.avgResonance))

/-- The `strength >= threshold` test of `clusterResults`, on the quaternion
and prime signature of the two results' memories. -/
noncomputable def resultLink (threshold : ℝ) (a b : SearchResult) : Bool :=
  decide (threshold ≤ entanglementStrength
    { quaternion := a.memory.quaternion, primeSignature := a.memory.primeSignature }
    { quaternion := b.memory.quaternion, primeSignature := b.memory.primeSignature })

/-- Source `clusterResults(results, threshold)` of `MemoryDecoder`:
the index-based greedy loop over the results, then clusters sorted by
descending average resonance. -/
noncomputable def clusterResults (results : List SearchResult) (threshold : ℝ) : List Cluster :=
  if results.length = 0 then []
  else sortClusters (mkClusters (outerLoop results (resultLink threshold) 0 ∅))

/-- The clustering operation exactly as the claim describes it: iterate
results in their given order, seed a cluster with each not-yet-assigned
result, absorb the later unassigned results whose entanglement strength
against the seed meets the threshold, and return the clusters sorted by
descending average resonance. -/
noncomputable def clusterResultsSpec (results : List SearchResult) (threshold : ℝ) : List Cluster :=
  sortClusters (mkClusters (greedyGroups (resultLink threshold) results))

/-- The pending entries of the loops at position `j`: the `(index, value)`
pairs of the results from index `j` on whose index is not yet assigned, in
order. -/
def pendEntries {α : Type} (rs : List α) (j : ℕ) (assigned : Finset ℕ) : List (ℕ × α) :=
  ((rs.enum).drop j).filter (fun p => decide (p.1 ∉ assigned))

/-- The `total` counter of `calculateEntropy`: how many signature entries
there are across all memories, duplicates counted. -/
def totalPrimeCount (memories : List Memory) : ℕ :=
  ((memories.map (fun m => m.primeSignature)).flatten).length

/-! ## Basic algebra lemmas -/

theorem magnitude_normalize (q : Quaternion) : magnitude (normalize q) = 1 := by
  have hs : 0 ≤ q.w * q.w + q.x * q.x + q.y * q.y + q.z * q.z := by
    have h1 := mul_self_nonneg q.w
    have h2 := mul_self_nonneg q.x
    have h3 := mul_self_nonneg q.y
    have h4 := mul_self_nonneg q.z
    linarith
  unfold normalize
  split_ifs with h
  · simp [magnitude]
  · unfold magnitude at h ⊢
    rw [Real.sqrt_eq_one]
    have hss : q.w * q.w + q.x * q.x + q.y * q.y + q.z * q.z ≠ 0 := by
      intro h0
      apply h
      rw [h0, Real.sqrt_zero]
    have hmm := Real.mul_self_sqrt hs
    simp only [div_mul_div_comm]
    rw [hmm]
    simp only [div_add_div_same]
    exact div_self hss

theorem normalize_of_unit {q : Quaternion} (h : magnitude q = 1) : normalize q = q := by
  unfold normalize
  rw [h]
  norm_num

theorem dot_self_of_unit {q : Quaternion} (h : magnitude q = 1) : dot q q = 1 := by
  unfold magnitude at h
  rw [Real.sqrt_eq_one] at h
  unfold dot
  exact h

theorem dot_comm (a b : Quaternion) : dot a b = dot b a := by
  unfold dot
  ring

theorem magnitude_harmonic (sig : List ℕ) : magnitude (harmonicQuaternion sig) = 1 := by
  unfold harmonicQuaternion
  exact magnitude_normalize _

theorem rawSignature_length (text : List ℕ) : (rawSignature text).length = text.length := by
  simp [rawSignature]

theorem dedupFirst_ne_nil {l : List ℕ} (h : l ≠ []) : dedupFirst l ≠ [] := by
  cases l with
  | nil => exact absurd rfl h
  | cons a t => simp [dedupFirst]

theorem encodeText_sig_ne_nil {s : List ℕ} (h : s ≠ []) :
    (encodeText s).primeSignature ≠ [] := by
  show dedupFirst (rawSignature s) ≠ []
  apply dedupFirst_ne_nil
  intro h0
  apply h
  have hl := rawSignature_length s
  rw [h0] at hl
  exact List.length_eq_zero.mp hl.symm

theorem jaccardSimilarity_self {sig : List ℕ} (h : sig ≠ []) :
    jaccardSimilarity sig sig = 1 := by
  unfold jaccardSimilarity
  simp only [Finset.inter_self, Finset.union_self]
  have hne : sig.toFinset.card ≠ 0 := by
    simp only [ne_eq, Finset.card_eq_zero, List.toFinset_eq_empty_iff]
    exact h
  rw [if_neg hne, div_self (by exact_mod_cast hne)]

/-! ## C6 -/

/-- C6: `normalize` returns the identity vector `(1,0,0,0)` exactly when the
magnitude is zero, otherwise divides each component by the magnitude, and its
output has magnitude 1 for every non-zero input. -/
theorem normalize_spec (q : Quaternion) :
    (magnitude q = 0 → normalize q = ⟨1, 0, 0, 0⟩) ∧
    (magnitude q ≠ 0 →
      normalize q = ⟨q.w / magnitude q, q.x / magnitude q, q.y / magnitude q, q.z / magnitude q⟩ ∧
      magnitude (normalize q) = 1) := by
  constructor
  · intro h
    unfold normalize
    rw [if_pos h]
  · intro h
    refine ⟨?_, magnitude_normalize q⟩
    unfold normalize
    rw [if_neg h]

/-! ## C7 -/

/-- C7: `hamiltonProduct` computes the four Hamilton-formula components and
normalizes the result, so its output has magnitude 1 (for unit inputs in
particular). -/
theorem hamiltonProduct_spec (a b : Quaternion) :
    hamiltonProduct a b = normalize
      ⟨a.w * b.w - a.x * b.x - a.y * b.y - a.z * b.z,
       a.w * b.x + a.x * b.w + a.y * b.z - a.z * b.y,
       a.w * b.y - a.x * b.z + a.y * b.w + a.z * b.x,
       a.w * b.z + a.x * b.y - a.y * b.x + a.z * b.w⟩ ∧
    magnitude (hamiltonProduct a b) = 1 :=
  ⟨rfl, magnitude_normalize _⟩

/-! ## C9 -/

/-- C9: entanglement strength is symmetric in its two arguments. -/
theorem entanglementStrength_comm (a b : EncodedText) :
    entanglementStrength a b = entanglementStrength b a := by
  simp only [entanglementStrength]
  rw [Finset.inter_comm, max_comm, dot_comm]

/-! ## C2 -/

/-- C2 counterexample: a memory with the unit quaternion and an empty prime
signature compared with itself scores `0.5`, not `1`. -/
theorem entanglementStrength_self_empty_ne_one :
    entanglementStrength ⟨⟨1, 0, 0, 0⟩, []⟩ ⟨⟨1, 0, 0, 0⟩, []⟩ ≠ 1 := by
  unfold entanglementStrength dot
  norm_num

/-- C2 (amended): self-comparison yields exactly 1 for a memory whose
quaternion is a unit vector and whose prime signature is non-empty. -/
theorem entanglementStrength_self (m : EncodedText)
    (hq : magnitude m.quaternion = 1) (hsig : m.primeSignature ≠ []) :
    entanglementStrength m m = 1 := by
  unfold entanglementStrength
  simp only [Finset.inter_self, max_self]
  have hne : m.primeSignature.toFinset.card ≠ 0 := by
    simp only [ne_eq, Finset.card_eq_zero, List.toFinset_eq_empty_iff]
    exact hsig
  rw [if_neg hne, div_self (by exact_mod_cast hne), dot_self_of_unit hq]
  norm_num

/-- C2 witness: the amended theorem applied to a concrete memory. -/
theorem entanglementStrength_self_witness :
    entanglementStrength ⟨⟨1, 0, 0, 0⟩, [2]⟩ ⟨⟨1, 0, 0, 0⟩, [2]⟩ = 1 :=
  entanglementStrength_self ⟨⟨1, 0, 0, 0⟩, [2]⟩ (by simp [magnitude]) (by simp)

/-! ## C1 -/

/-- C1 counterexample: the resonance self-score of the empty string is `0.5`,
not approximately `1`, because the Jaccard term of two empty signatures is
defined as `0`. -/
theorem resonanceScore_self_empty_ne_one :
    resonanceScore (encodeText []) (encodeText []) 0.5 0.5 ≠ 1 := by
  have hraw : rawSignature ([] : List ℕ) = [] := rfl
  have h1 : (encodeText []).primeSignature = [] := by
    show dedupFirst (rawSignature []) = []
    rw [hraw]
    simp [dedupFirst]
  have h2 : (encodeText []).quaternion = ⟨1, 0, 0, 0⟩ := by
    show harmonicQuaternion (rawSignature []) = ⟨1, 0, 0, 0⟩
    rw [hraw]
    unfold harmonicQuaternion normalize magnitude
    norm_num
  unfold resonanceScore
  rw [h1, h2]
  unfold jaccardSimilarity dot
  norm_num

/-- C1 (amended): for every non-empty string, the resonance self-score with
the default weights is exactly 1. -/
theorem resonanceScore_self (s : List ℕ) (h : s ≠ []) :
    resonanceScore (encodeText s) (encodeText s) 0.5 0.5 = 1 := by
  have hmag : magnitude (encodeText s).quaternion = 1 := magnitude_harmonic _
  have hsig : (encodeText s).primeSignature ≠ [] := encodeText_sig_ne_nil h
  unfold resonanceScore
  rw [jaccardSimilarity_self hsig, dot_self_of_unit hmag]
  norm_num

/-- C1 witness: the amended theorem applied to the one-character string with
code 104. -/
theorem resonanceScore_self_witness :
    resonanceScore (encodeText [104]) (encodeText [104]) 0.5 0.5 = 1 :=
  resonanceScore_self [104] (by simp)

/-! ## C5 -/

/-- C5: text encoding is a pure function of the text and is case-insensitive,
because the input is lower-cased before processing. -/
theorem encodeText_deterministic_case_insensitive (s : List ℕ) :
    encodeText s = encodeText s ∧ encodeText (s.map toUpperCode) = encodeText s := by
  refine ⟨rfl, ?_⟩
  have hraw : rawSignature (s.map toUpperCode) = rawSignature s := by
    unfold rawSignature
    rw [List.map_map]
    have hfun : ∀ c, toLowerCode (toUpperCode c) = toLowerCode c := by
      intro c
      unfold toLowerCode toUpperCode
      split_ifs <;> omega
    have : s.map (toLowerCode ∘ toUpperCode) = s.map toLowerCode := by
      refine List.map_congr_left ?_
      intro c _
      exact hfun c
    rw [this]
  unfold encodeText
  rw [hraw]

/-! ## C4 -/

theorem magnitude_slerp (a b : Quaternion) (t : ℝ) : magnitude (slerp a b t) = 1 := by
  unfold slerp
  dsimp only
  split_ifs <;> exact magnitude_normalize _

theorem slerp_zero {a : Quaternion} (ha : magnitude a = 1) (b : Quaternion) :
    slerp a b 0 = a := by
  unfold slerp
  dsimp only
  split_ifs <;>
    · simp only [mul_zero, Real.cos_zero, Real.sin_zero, zero_div, sub_zero, one_mul,
        zero_mul, add_zero]
      exact normalize_of_unit ha

theorem slerp_one {a b : Quaternion} (hb : magnitude b = 1) (hd : 0 ≤ dot a b) :
    slerp a b 1 = b := by
  have hnot : ¬ dot a b < 0 := not_lt.mpr hd
  unfold slerp
  dsimp only
  simp only [if_neg hnot]
  split_ifs with h1
  · have he : (⟨a.w + 1 * (b.w - a.w), a.x + 1 * (b.x - a.x),
        a.y + 1 * (b.y - a.y), a.z + 1 * (b.z - a.z)⟩ : Quaternion) = b := by
      ext <;> dsimp only <;> ring
    rw [he]
    exact normalize_of_unit hb
  · have hd995 : dot a b ≤ 0.9995 := not_lt.mp h1
    have hd1 : dot a b ≤ 1 := by linarith
    have hdm1 : -1 ≤ dot a b := by linarith
    have hsin : Real.sin (Real.arccos (dot a b)) ≠ 0 := by
      rw [Real.sin_arccos]
      have h2 : 0 < 1 - dot a b ^ 2 := by nlinarith
      exact ne_of_gt (Real.sqrt_pos.mpr h2)
    refine Eq.trans (congrArg normalize ?_) (normalize_of_unit hb)
    ext <;> dsimp only <;>
      rw [mul_one, Real.cos_arccos hdm1 hd1, mul_div_assoc, div_self hsin] <;> ring

/-- C4 counterexample: with antipodal unit inputs the sign correction fires,
so `slerp(a, b, 1)` returns `-b`, not `b` itself. -/
theorem slerp_one_flip_ne :
    slerp ⟨1, 0, 0, 0⟩ ⟨-1, 0, 0, 0⟩ 1 ≠ ⟨-1, 0, 0, 0⟩ := by
  have h : slerp ⟨1, 0, 0, 0⟩ ⟨-1, 0, 0, 0⟩ 1 = ⟨1, 0, 0, 0⟩ := by
    unfold slerp dot
    norm_num
    exact normalize_of_unit (by simp [magnitude])
  rw [h]
  intro hc
  have hw := congrArg Quaternion.w hc
  norm_num at hw

theorem slerp_one_neg {a b : Quaternion} (hb : magnitude b = 1) (hd : dot a b < 0) :
    slerp a b 1 = ⟨-b.w, -b.x, -b.y, -b.z⟩ := by
  have hnegb : magnitude (⟨-b.w, -b.x, -b.y, -b.z⟩ : Quaternion) = 1 := by
    unfold magnitude at hb ⊢
    convert hb using 2
    ring
  unfold slerp
  dsimp only
  simp only [if_pos hd]
  split_ifs with h1
  · have he : (⟨a.w + 1 * (-b.w - a.w), a.x + 1 * (-b.x - a.x),
        a.y + 1 * (-b.y - a.y), a.z + 1 * (-b.z - a.z)⟩ : Quaternion) =
        ⟨-b.w, -b.x, -b.y, -b.z⟩ := by
      ext <;> dsimp only <;> ring
    rw [he]
    exact normalize_of_unit hnegb
  · have hd995 : -dot a b ≤ 0.9995 := not_lt.mp h1
    have hd1 : -dot a b ≤ 1 := by linarith
    have hdm1 : -1 ≤ -dot a b := by linarith
    have hsin : Real.sin (Real.arccos (-dot a b)) ≠ 0 := by
      rw [Real.sin_arccos]
      have h2 : 0 < 1 - (-dot a b) ^ 2 := by nlinarith
      exact ne_of_gt (Real.sqrt_pos.mpr h2)
    refine Eq.trans (congrArg normalize ?_) (normalize_of_unit hnegb)
    ext <;> dsimp only <;>
      rw [mul_one, Real.cos_arccos hdm1 hd1, mul_div_assoc, div_self hsin] <;> ring

/-- C4 (amended): for unit quaternions `a`, `b`: `slerp(a,b,0) = a` and the
output has magnitude 1 for every `t`, unconditionally; `slerp(a,b,1) = b`
holds when `dot(a,b) ≥ 0`, and when the dot is negative the sign correction
makes the `t = 1` endpoint `-b` rather than `b`. -/
theorem slerp_boundary (a b : Quaternion) (ha : magnitude a = 1) (hb : magnitude b = 1) :
    slerp a b 0 = a ∧ (∀ t : ℝ, magnitude (slerp a b t) = 1) ∧
    (0 ≤ dot a b → slerp a b 1 = b) ∧
    (dot a b < 0 → slerp a b 1 = ⟨-b.w, -b.x, -b.y, -b.z⟩) :=
  ⟨slerp_zero ha b, fun t => magnitude_slerp a b t,
   fun hd => slerp_one hb hd, fun hd => slerp_one_neg hb hd⟩

/-- C4 witness: the amended theorem applied to two concrete orthogonal unit
quaternions. -/
theorem slerp_boundary_witness :
    slerp ⟨1, 0, 0, 0⟩ ⟨0, 1, 0, 0⟩ 0 = ⟨1, 0, 0, 0⟩ ∧
    magnitude (slerp ⟨1, 0, 0, 0⟩ ⟨0, 1, 0, 0⟩ 0.5) = 1 ∧
    slerp ⟨1, 0, 0, 0⟩ ⟨0, 1, 0, 0⟩ 1 = ⟨0, 1, 0, 0⟩ := by
  have h := slerp_boundary ⟨1, 0, 0, 0⟩ ⟨0, 1, 0, 0⟩ (by simp [magnitude])
    (by simp [magnitude])
  exact ⟨h.1, h.2.1 0.5, h.2.2.1 (by simp [dot])⟩

/-! ## C8 -/

theorem count_div_length_pos {l : List ℕ} (hl : l ≠ []) {p : ℕ} (hp : p ∈ l.toFinset) :
    0 < (l.count p : ℝ) / (l.length : ℝ) := by
  have h1 : 0 < l.count p := List.count_pos_iff.mpr (List.mem_toFinset.mp hp)
  have h2 : 0 < l.length := List.length_pos.mpr hl
  exact div_pos (by exact_mod_cast h1) (by exact_mod_cast h2)

theorem count_div_length_le_one {l : List ℕ} (hl : l ≠ []) (p : ℕ) :
    (l.count p : ℝ) / (l.length : ℝ) ≤ 1 := by
  have h2 : (0 : ℝ) < (l.length : ℝ) := by exact_mod_cast List.length_pos.mpr hl
  rw [div_le_one h2]
  exact_mod_cast List.count_le_length p l

theorem freq_sum_eq_one {l : List ℕ} (hl : l ≠ []) :
    ∑ p ∈ l.toFinset, (l.count p : ℝ) / (l.length : ℝ) = 1 := by
  have hn : (l.length : ℝ) ≠ 0 := by
    have := List.length_pos.mpr hl
    positivity
  rw [← Finset.sum_div, ← Nat.cast_sum, List.sum_toFinset_count_eq_length, div_self hn]

theorem sum_mul_log_inv_le_log_card (S : Finset ℕ) (w : ℕ → ℝ)
    (hpos : ∀ p ∈ S, 0 < w p) (hsum : ∑ p ∈ S, w p = 1) :
    ∑ p ∈ S, w p * Real.log (w p)⁻¹ ≤ Real.log (S.card : ℝ) := by
  have h : ∑ p ∈ S, w p • Real.log ((w p)⁻¹) ≤ Real.log (∑ p ∈ S, w p • (w p)⁻¹) :=
    (strictConcaveOn_log_Ioi.concaveOn).le_map_sum (fun q hq => le_of_lt (hpos q hq)) hsum
      (fun q hq => Set.mem_Ioi.mpr (inv_pos.mpr (hpos q hq)))
  have hone : ∀ p ∈ S, w p • (w p)⁻¹ = (1 : ℝ) := fun q hq => by
    rw [smul_eq_mul, mul_inv_cancel₀ (ne_of_gt (hpos q hq))]
  rw [Finset.sum_congr rfl hone, Finset.sum_const, nsmul_eq_mul, mul_one] at h
  simpa [smul_eq_mul] using h

theorem shannon_le_logb (S : Finset ℕ) (w : ℕ → ℝ)
    (hpos : ∀ p ∈ S, 0 < w p) (hsum : ∑ p ∈ S, w p = 1) :
    ∑ p ∈ S, -(w p * Real.logb 2 (w p)) ≤ Real.logb 2 (S.card : ℝ) := by
  have hlog2 : 0 < Real.log 2 := Real.log_pos (by norm_num)
  have heq : ∀ p ∈ S, -(w p * Real.logb 2 (w p)) = w p * Real.log (w p)⁻¹ / Real.log 2 := by
    intro q _
    rw [Real.logb, Real.log_inv]
    ring
  rw [Finset.sum_congr rfl heq, ← Finset.sum_div, Real.logb]
  exact (div_le_div_iff_of_pos_right hlog2).mpr (sum_mul_log_inv_le_log_card S w hpos hsum)

theorem toFinset_card_ne_zero {l : List ℕ} (hl : l ≠ []) : l.toFinset.card ≠ 0 := by
  simp only [ne_eq, Finset.card_eq_zero, List.toFinset_eq_empty_iff]
  exact hl

theorem entropySum_nonneg {l : List ℕ} (hl : l ≠ []) : 0 ≤ entropySum l := by
  unfold entropySum
  apply Finset.sum_nonneg
  intro p hp
  rw [if_pos (count_div_length_pos hl hp)]
  have hb := Real.logb_nonpos (by norm_num : (1 : ℝ) < 2)
    (le_of_lt (count_div_length_pos hl hp)) (count_div_length_le_one hl p)
  nlinarith [count_div_length_pos hl hp]

theorem entropySum_le {l : List ℕ} (hl : l ≠ []) : entropySum l ≤ maxEntropyOf l := by
  unfold entropySum maxEntropyOf
  rw [if_neg (toFinset_card_ne_zero hl)]
  rw [Finset.sum_congr rfl (fun p hp => if_pos (count_div_length_pos hl hp))]
  exact shannon_le_logb l.toFinset _ (fun p hp => count_div_length_pos hl hp) (freq_sum_eq_one hl)

theorem maxEntropyOf_nonneg {l : List ℕ} (hl : l ≠ []) : 0 ≤ maxEntropyOf l := by
  unfold maxEntropyOf
  rw [if_neg (toFinset_card_ne_zero hl)]
  refine Real.logb_nonneg (by norm_num) ?_
  exact_mod_cast Nat.one_le_iff_ne_zero.mpr (toFinset_card_ne_zero hl)

/-- C8: the entropy metric returns 0 on an empty collection or when the
total signature-entry count is zero, and always lies in the interval
`[0, 1]`. -/
theorem calculateEntropy_spec (memories : List Memory) :
    (memories = [] → calculateEntropy memories = 0) ∧
    (totalPrimeCount memories = 0 → calculateEntropy memories = 0) ∧
    0 ≤ calculateEntropy memories ∧ calculateEntropy memories ≤ 1 := by
  by_cases h1 : memories.length = 0
  · have hz : calculateEntropy memories = 0 := by
      unfold calculateEntropy
      rw [if_pos h1]
    rw [hz]
    simp
  · by_cases h2 : ((memories.map (fun m => m.primeSignature)).flatten).length = 0
    · have hz : calculateEntropy memories = 0 := by
        unfold calculateEntropy
        rw [if_neg h1]
        show (if ((memories.map (fun m => m.primeSignature)).flatten).length = 0 then (0 : ℝ)
          else if maxEntropyOf ((memories.map (fun m => m.primeSignature)).flatten) = 0 then 0
          else entropySum ((memories.map (fun m => m.primeSignature)).flatten) /
            maxEntropyOf ((memories.map (fun m => m.primeSignature)).flatten)) = 0
        rw [if_pos h2]
      rw [hz]
      simp
    · have hl : ((memories.map (fun m => m.primeSignature)).flatten) ≠ [] := by
        intro hc
        apply h2
        rw [hc]
        rfl
      have hval : calculateEntropy memories =
          if maxEntropyOf ((memories.map (fun m => m.primeSignature)).flatten) = 0 then 0
          else entropySum ((memories.map (fun m => m.primeSignature)).flatten) /
            maxEntropyOf ((memories.map (fun m => m.primeSignature)).flatten) := by
        unfold calculateEntropy
        rw [if_neg h1]
        show (if ((memories.map (fun m => m.primeSignature)).flatten).length = 0 then (0 : ℝ)
          else if maxEntropyOf ((memories.map (fun m => m.primeSignature)).flatten) = 0 then 0
          else entropySum ((memories.map (fun m => m.primeSignature)).flatten) /
            maxEntropyOf ((memories.map (fun m => m.primeSignature)).flatten)) = _
        rw [if_neg h2]
      refine ⟨fun hc => absurd (by simp [hc] : memories.length = 0) h1,
        fun hc => absurd hc h2, ?_, ?_⟩
      · rw [hval]
        split_ifs with hM
        · exact le_refl 0
        · exact div_nonneg (entropySum_nonneg hl) (maxEntropyOf_nonneg hl)
      · rw [hval]
        split_ifs with hM
        · norm_num
        · have hMpos : 0 < maxEntropyOf ((memories.map (fun m => m.primeSignature)).flatten) :=
            lt_of_le_of_ne (maxEntropyOf_nonneg hl) (Ne.symm hM)
          rw [div_le_one hMpos]
          exact entropySum_le hl

/-! ## C3 and C10: clustering lemmas -/

theorem pendEntries_of_le {α : Type} (rs : List α) {j : ℕ} (h : rs.length ≤ j)
    (A : Finset ℕ) : pendEntries rs j A = [] := by
  unfold pendEntries
  rw [List.drop_eq_nil_of_le (by rw [List.enum_length]; exact h)]
  rfl

theorem pendEntries_mem_le {α : Type} {rs : List α} {j : ℕ} {A : Finset ℕ}
    {p : ℕ × α} (hp : p ∈ pendEntries rs j A) : j ≤ p.1 := by
  unfold pendEntries at hp
  have hp2 := List.mem_of_mem_filter hp
  obtain ⟨n, hn, he⟩ := List.getElem_of_mem hp2
  rw [List.getElem_drop, List.getElem_enum] at he
  rw [← he]
  simp

theorem pendEntries_skip {α : Type} {rs : List α} {j : ℕ} (h : j < rs.length)
    {A : Finset ℕ} (hA : j ∈ A) :
    pendEntries rs j A = pendEntries rs (j + 1) A := by
  unfold pendEntries
  rw [List.drop_eq_getElem_cons (by rw [List.enum_length]; exact h), List.getElem_enum]
  rw [List.filter_cons_of_neg (by simp [hA])]

theorem pendEntries_cons {α : Type} {rs : List α} {j : ℕ} (h : j < rs.length)
    {A : Finset ℕ} (hA : j ∉ A) :
    pendEntries rs j A = (j, rs.get ⟨j, h⟩) :: pendEntries rs (j + 1) A := by
  unfold pendEntries
  rw [List.drop_eq_getElem_cons (by rw [List.enum_length]; exact h), List.getElem_enum]
  rw [List.filter_cons_of_pos (by simp [hA])]
  rw [List.get_eq_getElem]

theorem pendEntries_insert_lt {α : Type} (rs : List α) {i j : ℕ} (hij : i < j)
    (A : Finset ℕ) : pendEntries rs j (insert i A) = pendEntries rs j A := by
  unfold pendEntries
  apply List.filter_congr
  intro p hp
  have hge : j ≤ p.1 := by
    obtain ⟨n, hn, he⟩ := List.getElem_of_mem hp
    rw [List.getElem_drop, List.getElem_enum] at he
    rw [← he]
    simp
  have hne : p.1 ≠ i := by omega
  simp [Finset.mem_insert, hne]

theorem pendEntries_union {α : Type} (rs : List α) (j : ℕ) (A B : Finset ℕ) :
    pendEntries rs j (A ∪ B) =
      (pendEntries rs j A).filter (fun p => decide (p.1 ∉ B)) := by
  unfold pendEntries
  rw [List.filter_filter]
  apply List.filter_congr
  intro p _
  by_cases hA : p.1 ∈ A
  · simp [hA, Finset.mem_union]
  · by_cases hB : p.1 ∈ B
    · simp [hA, hB, Finset.mem_union]
    · simp [hA, hB, Finset.mem_union]

theorem pendEntries_map_fst_nodup {α : Type} (rs : List α) (j : ℕ) (A : Finset ℕ) :
    ((pendEntries rs j A).map Prod.fst).Nodup := by
  have hsub : (pendEntries rs j A).Sublist rs.enum :=
    (List.filter_sublist _).trans (List.drop_sublist _ _)
  apply (List.Sublist.map Prod.fst hsub).nodup
  rw [List.enum_map_fst]
  exact List.nodup_range _

theorem filter_comp_map_snd {α : Type} (q : α → Bool) (l : List (ℕ × α)) :
    (l.filter (fun p => q p.2)).map Prod.snd = (l.map Prod.snd).filter q := by
  induction l with
  | nil => rfl
  | cons a t ih =>
    by_cases h : q a.2 = true
    · simp [List.filter_cons, h, ih]
    · simp [List.filter_cons, h, ih]

theorem innerLoop_spec {α : Type} (rs : List α) (link : α → α → Bool) (seed : α) :
    ∀ j A, innerLoop rs link seed j A =
      (((pendEntries rs j A).filter (fun p => link seed p.2)).map Prod.snd,
       A ∪ (((pendEntries rs j A).filter (fun p => link seed p.2)).map Prod.fst).toFinset) := by
  have main : ∀ k j A, rs.length - j ≤ k → innerLoop rs link seed j A =
      (((pendEntries rs j A).filter (fun p => link seed p.2)).map Prod.snd,
       A ∪ (((pendEntries rs j A).filter (fun p => link seed p.2)).map Prod.fst).toFinset) := by
    intro k
    induction k with
    | zero =>
      intro j A hk
      rw [innerLoop, dif_neg (by omega : ¬ j < rs.length),
        pendEntries_of_le rs (by omega) A]
      simp
    | succ k ih =>
      intro j A hk
      by_cases hj : j < rs.length
      · rw [innerLoop, dif_pos hj]
        by_cases hA : j ∈ A
        · rw [if_pos hA, ih (j + 1) A (by omega), pendEntries_skip hj hA]
        · rw [if_neg hA]
          by_cases hlink : link seed (rs.get ⟨j, hj⟩) = true
          · rw [if_pos hlink]
            rw [ih (j + 1) (insert j A) (by omega)]
            rw [pendEntries_insert_lt rs (Nat.lt_succ_self j) A]
            rw [pendEntries_cons hj hA]
            rw [List.filter_cons_of_pos (by simpa using hlink)]
            simp only [List.map_cons, List.toFinset_cons]
            rw [Finset.insert_union, Finset.union_insert]
          · rw [if_neg hlink]
            rw [ih (j + 1) A (by omega), pendEntries_cons hj hA]
            rw [List.filter_cons_of_neg (by simpa using hlink)]
      · rw [innerLoop, dif_neg hj, pendEntries_of_le rs (by omega) A]
        simp
  intro j A
  exact main (rs.length - j) j A le_rfl

theorem filter_not_mem_linked {α : Type} (link : α → α → Bool) (seed : α)
    (rs : List α) (j : ℕ) (A : Finset ℕ) :
    (pendEntries rs j A).filter (fun p => decide
        (p.1 ∉ (((pendEntries rs j A).filter (fun p => link seed p.2)).map Prod.fst).toFinset)) =
      (pendEntries rs j A).filter (fun p => !link seed p.2) := by
  apply List.filter_congr
  intro p hp
  have hnd := pendEntries_map_fst_nodup rs j A
  by_cases hl : link seed p.2 = true
  · have hmem : p.1 ∈ ((pendEntries rs j A).filter (fun p => link seed p.2)).map Prod.fst :=
      List.mem_map_of_mem _ (List.mem_filter.mpr ⟨hp, hl⟩)
    simp [List.mem_toFinset, hmem, hl]
  · have hmem : p.1 ∉ ((pendEntries rs j A).filter (fun p => link seed p.2)).map Prod.fst := by
      intro hc
      obtain ⟨q, hq, hqe⟩ := List.mem_map.mp hc
      have hq1 := List.mem_filter.mp hq
      have hqp : q = p :=
        List.inj_on_of_nodup_map hnd (List.mem_of_mem_filter hq) hp hqe
      exact hl (hqp ▸ hq1.2)
    simp [List.mem_toFinset, hmem, hl]

theorem outerLoop_spec {α : Type} (rs : List α) (link : α → α → Bool) :
    ∀ i A, outerLoop rs link i A =
      greedyGroups link ((pendEntries rs i A).map Prod.snd) := by
  have main : ∀ k i A, rs.length - i ≤ k → outerLoop rs link i A =
      greedyGroups link ((pendEntries rs i A).map Prod.snd) := by
    intro k
    induction k with
    | zero =>
      intro i A hk
      rw [outerLoop, dif_neg (by omega : ¬ i < rs.length),
        pendEntries_of_le rs (by omega) A]
      simp [greedyGroups]
    | succ k ih =>
      intro i A hk
      by_cases hi : i < rs.length
      · rw [outerLoop, dif_pos hi]
        by_cases hA : i ∈ A
        · rw [if_pos hA, ih (i + 1) A (by omega), pendEntries_skip hi hA]
        · rw [if_neg hA]
          rw [innerLoop_spec rs link (rs.get ⟨i, hi⟩) (i + 1) (insert i A)]
          rw [pendEntries_insert_lt rs (Nat.lt_succ_self i) A]
          rw [ih (i + 1) _ (by omega)]
          rw [pendEntries_union, pendEntries_insert_lt rs (Nat.lt_succ_self i) A]
          rw [filter_not_mem_linked]
          rw [pendEntries_cons hi hA]
          simp only [List.map_cons]
          rw [filter_comp_map_snd (fun r => link (rs.get ⟨i, hi⟩) r) (pendEntries rs (i + 1) A)]
          rw [filter_comp_map_snd (fun r => !link (rs.get ⟨i, hi⟩) r) (pendEntries rs (i + 1) A)]
          rw [greedyGroups]
      · rw [outerLoop, dif_neg hi, pendEntries_of_le rs (by omega) A]
        simp [greedyGroups]
  intro i A
  exact main (rs.length - i) i A le_rfl

theorem outerLoop_eq_greedy {α : Type} (rs : List α) (link : α → α → Bool) :
    outerLoop rs link 0 ∅ = greedyGroups link rs := by
  rw [outerLoop_spec rs link 0 ∅]
  unfold pendEntries
  rw [List.drop_zero]
  rw [List.filter_eq_self.mpr (by intro p hp; simp)]
  rw [List.enum_map_snd]

theorem greedyGroups_flatten_perm {α : Type} (link : α → α → Bool) (l : List α) :
    (greedyGroups link l).flatten.Perm l := by
  have main : ∀ k (l : List α), l.length ≤ k → (greedyGroups link l).flatten.Perm l := by
    intro k
    induction k with
    | zero =>
      intro l hl
      have h0 : l = [] := List.length_eq_zero.mp (Nat.le_zero.mp hl)
      subst h0
      simp [greedyGroups]
    | succ k ih =>
      intro l hl
      cases l with
      | nil => simp [greedyGroups]
      | cons seed rest =>
        simp only [List.length_cons] at hl
        rw [greedyGroups, List.flatten_cons, List.cons_append]
        refine List.Perm.cons seed ?_
        have h1 : (greedyGroups link (rest.filter (fun r => !link seed r))).flatten.Perm
            (rest.filter (fun r => !link seed r)) :=
          ih _ (le_trans (List.length_filter_le _ _) (by omega))
        exact (List.Perm.append_left _ h1).trans (List.filter_append_perm _ rest)
  exact main l.length l le_rfl

theorem greedyGroups_ne_nil {α : Type} (link : α → α → Bool) (l : List α) :
    ∀ g ∈ greedyGroups link l, g ≠ [] := by
  have main : ∀ k (l : List α), l.length ≤ k → ∀ g ∈ greedyGroups link l, g ≠ [] := by
    intro k
    induction k with
    | zero =>
      intro l hl g hg
      have h0 : l = [] := List.length_eq_zero.mp (Nat.le_zero.mp hl)
      subst h0
      simp [greedyGroups] at hg
    | succ k ih =>
      intro l hl g hg
      cases l with
      | nil => simp [greedyGroups] at hg
      | cons seed rest =>
        simp only [List.length_cons] at hl
        rw [greedyGroups] at hg
        rcases List.mem_cons.mp hg with h | h
        · subst h
          simp
        · exact ih (rest.filter (fun r => !link seed r))
            (le_trans (List.length_filter_le _ _) (by omega)) g h
  exact main l.length l le_rfl

theorem mkClusters_map_results (gs : List (List SearchResult)) :
    (mkClusters gs).map (fun c => c.results) = gs := by
  unfold mkClusters
  rw [List.map_map]
  exact List.enum_map_snd gs

theorem sortClusters_perm (cs : List Cluster) : (sortClusters cs).Perm cs :=
  List.mergeSort_perm cs _

/-- C3: the source clustering routine implements exactly the claimed
algorithm: greedy seeding in order, absorbing later unassigned results whose
entanglement strength against the seed meets the threshold, and returning
the clusters sorted by descending average resonance. -/
theorem clusterResults_eq_spec (results : List SearchResult) (threshold : ℝ) :
    clusterResults results threshold = clusterResultsSpec results threshold := by
  unfold clusterResults clusterResultsSpec
  split_ifs with h
  · have h0 : results = [] := List.length_eq_zero.mp h
    subst h0
    simp [greedyGroups, mkClusters, sortClusters, List.mergeSort_nil]
  · rw [outerLoop_eq_greedy]

/-- C10: clustering partitions its input: the members of the returned
clusters are a permutation of the input results, every cluster is non-empty,
and the cluster sizes sum to the input length. -/
theorem clusterResults_partition (results : List SearchResult) (threshold : ℝ) :
    ((clusterResults results threshold).map (fun c => c.results)).flatten.Perm results ∧
    (∀ c ∈ clusterResults results threshold, c.results ≠ []) ∧
    ((clusterResults results threshold).map (fun c => c.results.length)).sum = results.length := by
  have hperm : ((clusterResults results threshold).map (fun c => c.results)).flatten.Perm results := by
    unfold clusterResults
    split_ifs with h
    · have h0 : results = [] := List.length_eq_zero.mp h
      subst h0
      simp
    · rw [outerLoop_eq_greedy]
      have hstep :=
        (((sortClusters_perm (mkClusters (greedyGroups (resultLink threshold) results))).map
          (fun c => c.results))).flatten
      rw [mkClusters_map_results] at hstep
      exact hstep.trans (greedyGroups_flatten_perm _ _)
  have hne : ∀ c ∈ clusterResults results threshold, c.results ≠ [] := by
    intro c hc
    unfold clusterResults at hc
    split_ifs at hc with h
    · simp at hc
    · rw [outerLoop_eq_greedy] at hc
      have hc2 : c ∈ mkClusters (greedyGroups (resultLink threshold) results) :=
        (sortClusters_perm _).mem_iff.mp hc
      unfold mkClusters at hc2
      obtain ⟨ig, hig, hce⟩ := List.mem_map.mp hc2
      have hg : ig.2 ∈ greedyGroups (resultLink threshold) results := by
        have hm := List.mem_map_of_mem Prod.snd hig
        rw [List.enum_map_snd] at hm
        exact hm
      rw [← hce]
      exact greedyGroups_ne_nil _ _ ig.2 hg
  refine ⟨hperm, hne, ?_⟩
  have hmm : (clusterResults results threshold).map (fun c => c.results.length) =
      ((clusterResults results threshold).map (fun c => c.results)).map List.length := by
    rw [List.map_map]
    rfl
  rw [hmm, ← List.length_flatten]
  exact hperm.length_eq

end QMF
